import Mathlib

/-!
Verification of the iterative Fibonacci program (src/fibonacci.rs).

The program is one pure function `fibonacci : u64 -> u64` computed by an
iterative loop with wrapping 64-bit unsigned arithmetic, and a driver `main`
printing `fib(i) = v` for i = 0..9.  We embed machine integers as `Nat`
with explicit reduction modulo `2 ^ 64` at each addition, model the loop as
structural recursion on the iteration count, and model the driver's output
as the list of lines it prints.
-/

/-- The modulus of 64-bit unsigned arithmetic, `u64::MAX + 1`. -/
def U64_MOD : Nat := 2 ^ 64

/-- The mathematical Fibonacci sequence of the spec:
F(0) = 0, F(1) = 1, F(k) = F(k-2) + F(k-1). -/
def F : Nat → Nat
  | 0 => 0
  | 1 => 1
  | n + 2 => F n + F (n + 1)

/-- One iteration of the loop body of `fibonacci`:
`temp = a + b; a = b; b = temp`, with the `u64` addition wrapping. -/
def loopStep (st : Nat × Nat) : Nat × Nat :=
  (st.2, (st.1 + st.2) % U64_MOD)

/-- The loop `for _ in 2..=n` of `fibonacci`, as recursion on the number of
remaining iterations, carrying the state `(a, b)`. -/
def fibLoop : Nat → Nat × Nat → Nat × Nat
  | 0, st => st
  | k + 1, st => fibLoop k (loopStep st)

/-- The function `fibonacci` of src/fibonacci.rs: early return `n` when
`n <= 1`, otherwise run the loop `for _ in 2..=n` (that is, `n - 1`
iterations) from `a = 0, b = 1` and return `b`. -/
def fibonacci (n : Nat) : Nat :=
  if n ≤ 1 then n
  else (fibLoop (n - 1) (0, 1)).2

/-- The list of sums `a + b` evaluated by the loop body across its
iterations (before reduction mod 2^64), starting from state `st`. -/
def loopSums : Nat → Nat × Nat → List Nat
  | 0, _ => []
  | k + 1, st => (st.1 + st.2) :: loopSums k (loopStep st)

/-- The sums `a + b` evaluated during the call `fibonacci n`: none when the
early return for `n <= 1` is taken, otherwise one per loop iteration. -/
def fibSums (n : Nat) : List Nat :=
  if n ≤ 1 then []
  else loopSums (n - 1) (0, 1)

/-- All sums `a + b` evaluated across the driver's calls
`fibonacci 0, ..., fibonacci 9`. -/
def driverSums : List Nat :=
  (List.range 10).flatMap fibSums

/-- Fuel-indexed version of the loop: performs `iters` iterations, but gives
up (returns `none`) when `fuel` runs out before the iterations do.  Used to
state termination of the loop as a theorem rather than by construction. -/
def fibLoopFuel : Nat → Nat → Nat × Nat → Option (Nat × Nat)
  | _, 0, st => some st
  | 0, _ + 1, _ => none
  | f + 1, k + 1, st => fibLoopFuel f k (loopStep st)

/-- Fuel-indexed version of `fibonacci`. -/
def fibonacciFuel (fuel n : Nat) : Option Nat :=
  if n ≤ 1 then some n
  else (fibLoopFuel fuel (n - 1) (0, 1)).map Prod.snd

/-- The lines `main` writes to standard output, in order:
`println!("fib(\x7b\x7d) = \x7b\x7d", i, fibonacci(i))` for `i in 0..10`. -/
def mainOutput : List String :=
  (List.range 10).map (fun i => "fib(" ++ toString i ++ ") = " ++ toString (fibonacci i))

/-! ### Helper lemmas -/

lemma F_le_succ (n : Nat) : F n ≤ F (n + 1) := by
  cases n with
  | zero => simp [F]
  | succ m =>
    show F (m + 1) ≤ F (m + 2)
    rw [F]
    exact Nat.le_add_left _ _

lemma F_mono {m n : Nat} (h : m ≤ n) : F m ≤ F n := by
  induction n with
  | zero =>
    have : m = 0 := Nat.le_zero.mp h
    simp [this]
  | succ k ih =>
    rcases Nat.lt_or_ge m (k + 1) with h' | h'
    · exact le_trans (ih (Nat.lt_succ_iff.mp h')) (F_le_succ k)
    · have : m = k + 1 := Nat.le_antisymm h h'
      simp [this]

lemma fibLoop_succ (k : Nat) (st : Nat × Nat) :
    fibLoop (k + 1) st = fibLoop k (loopStep st) := rfl

lemma loopStep_mod (j : Nat) :
    loopStep (F j % U64_MOD, F (j + 1) % U64_MOD)
      = (F (j + 1) % U64_MOD, F (j + 2) % U64_MOD) := by
  show (F (j + 1) % U64_MOD, (F j % U64_MOD + F (j + 1) % U64_MOD) % U64_MOD)
      = (F (j + 1) % U64_MOD, F (j + 2) % U64_MOD)
  rw [← Nat.add_mod]
  rfl

lemma fibLoop_spec (k : Nat) : ∀ j : Nat,
    fibLoop k (F j % U64_MOD, F (j + 1) % U64_MOD)
      = (F (j + k) % U64_MOD, F (j + k + 1) % U64_MOD) := by
  induction k with
  | zero => intro j; rfl
  | succ k ih =>
    intro j
    rw [fibLoop_succ, loopStep_mod, ih (j + 1)]
    have e1 : j + 1 + k = j + (k + 1) := by omega
    rw [e1]

/-- `fibonacci` computes `F` modulo `2 ^ 64`, for every index. -/
lemma fib_mod (n : Nat) : fibonacci n = F n % U64_MOD := by
  by_cases h : n ≤ 1
  · interval_cases n
    · rfl
    · rfl
  · have h2 : 2 ≤ n := by omega
    have base : ((0 : Nat), (1 : Nat)) = (F 0 % U64_MOD, F 1 % U64_MOD) := rfl
    have := fibLoop_spec (n - 1) 0
    rw [← base] at this
    have en : 0 + (n - 1) + 1 = n := by omega
    rw [en] at this
    unfold fibonacci
    rw [if_neg h, this]

/-- When `F n` is representable in 64 bits, `fibonacci` computes it
exactly. -/
lemma fib_exact {n : Nat} (h : F n < U64_MOD) : fibonacci n = F n := by
  rw [fib_mod, Nat.mod_eq_of_lt h]

/-! ### Claims -/

/-- C1: for every index n such that F(n) is representable in 64 bits
(F(n) < 2^64, which bounds every intermediate sum as well since the sums
computed are F(2), ..., F(n)), `fibonacci n` returns exactly F(n). -/
theorem fibonacci_correct (n : Nat) (h : F n < 2 ^ 64) : fibonacci n = F n :=
  fib_exact h

theorem fibonacci_correct_witness :
    F 10 < 2 ^ 64 ∧ fibonacci 10 = F 10 :=
  ⟨by decide, fibonacci_correct 10 (by decide)⟩

/-- C6: for every n, `fibonacci n` equals F(n) reduced modulo 2^64: the
wrapping addition makes the result F(n) mod 2^64, with no failure path. -/
theorem fibonacci_wraps (n : Nat) : fibonacci n = F n % 2 ^ 64 :=
  fib_mod n

/-- C2: `main` writes exactly the ten lines `fib(0) = 0` .. `fib(9) = 34`,
in increasing order of index, and nothing else. -/
theorem main_output_exact :
    mainOutput = ["fib(0) = 0", "fib(1) = 1", "fib(2) = 1", "fib(3) = 2",
      "fib(4) = 3", "fib(5) = 5", "fib(6) = 8", "fib(7) = 13",
      "fib(8) = 21", "fib(9) = 34"] := by decide

/-- C3: `fibonacci 0 = 0` and `fibonacci 1 = 1`, and for every `n ≤ 1` the
early return yields `n` with an empty list of loop additions: the
accumulation loop is never executed. -/
theorem base_cases_no_loop :
    fibonacci 0 = 0 ∧ fibonacci 1 = 1 ∧
    (∀ n : Nat, n ≤ 1 → fibonacci n = n ∧ fibSums n = []) := by
  refine ⟨rfl, rfl, fun n h => ⟨?_, ?_⟩⟩
  · unfold fibonacci; rw [if_pos h]
  · unfold fibSums; rw [if_pos h]

theorem base_cases_no_loop_witness :
    (1 : Nat) ≤ 1 ∧ (fibonacci 1 = 1 ∧ fibSums 1 = []) :=
  ⟨by decide, base_cases_no_loop.2.2 1 (by decide)⟩

/-- C4: for every `n ≥ 2` whose computation stays within `u64` (all
intermediate sums are at most `F n`), `fibonacci` satisfies the Fibonacci
recurrence. -/
theorem fibonacci_recurrence (n : Nat) (h2 : 2 ≤ n) (h : F n < 2 ^ 64) :
    fibonacci n = fibonacci (n - 1) + fibonacci (n - 2) := by
  have h1 : F (n - 1) < 2 ^ 64 := lt_of_le_of_lt (F_mono (by omega)) h
  have h0 : F (n - 2) < 2 ^ 64 := lt_of_le_of_lt (F_mono (by omega)) h
  rw [fib_exact h, fib_exact h1, fib_exact h0]
  obtain ⟨m, rfl⟩ : ∃ m, n = m + 2 := ⟨n - 2, by omega⟩
  show F (m + 2) = F (m + 1) + F m
  simp only [F]
  exact Nat.add_comm _ _

theorem fibonacci_recurrence_witness :
    (2 : Nat) ≤ 10 ∧ F 10 < 2 ^ 64 ∧ fibonacci 10 = fibonacci 9 + fibonacci 8 :=
  ⟨by decide, by decide, fibonacci_recurrence 10 (by decide) (by decide)⟩

/-- C5 counterexample: monotonicity without an overflow restriction fails,
because the wrapping addition makes `fibonacci 94` smaller than
`fibonacci 93` (F 94 exceeds 2^64 and wraps). -/
theorem fibonacci_monotone_cex : ¬ (fibonacci 94 ≥ fibonacci 93) := by decide

/-- C5 (amended): for every `n ≥ 1` with `F n` representable in 64 bits,
`fibonacci n ≥ fibonacci (n - 1)`. -/
theorem fibonacci_monotone (n : Nat) (h1 : 1 ≤ n) (h : F n < 2 ^ 64) :
    fibonacci n ≥ fibonacci (n - 1) := by
  have h0 : F (n - 1) < 2 ^ 64 := lt_of_le_of_lt (F_mono (by omega)) h
  rw [fib_exact h, fib_exact h0]
  exact F_mono (by omega)

theorem fibonacci_monotone_witness :
    (1 : Nat) ≤ 9 ∧ F 9 < 2 ^ 64 ∧ fibonacci 9 ≥ fibonacci 8 :=
  ⟨by decide, by decide, fibonacci_monotone 9 (by decide) (by decide)⟩

/-- C7: the loop invariant.  For `2 ≤ k ≤ n` with `F n` representable,
immediately before the k-th update (after `k - 2` iterations) the state is
`(F (k-2), F (k-1))`, and immediately after it (after `k - 1` iterations)
the state is `(F (k-1), F k)`: in particular `b` then holds `F k`. -/
theorem loop_invariant (n k : Nat) (hk2 : 2 ≤ k) (hkn : k ≤ n)
    (h : F n < 2 ^ 64) :
    fibLoop (k - 2) (0, 1) = (F (k - 2), F (k - 1)) ∧
    fibLoop (k - 1) (0, 1) = (F (k - 1), F k) := by
  have hb : ∀ j, j ≤ k → F j < U64_MOD :=
    fun j hj => lt_of_le_of_lt (F_mono (le_trans hj hkn)) h
  have base : ((0 : Nat), (1 : Nat)) = (F 0 % U64_MOD, F 1 % U64_MOD) := rfl
  have e1 : 0 + (k - 2) = k - 2 := by omega
  have e2 : k - 2 + 1 = k - 1 := by omega
  have e3 : 0 + (k - 1) = k - 1 := by omega
  have e4 : k - 1 + 1 = k := by omega
  refine ⟨?_, ?_⟩
  · rw [base, fibLoop_spec (k - 2) 0, e1, e2,
      Nat.mod_eq_of_lt (hb (k - 2) (by omega)),
      Nat.mod_eq_of_lt (hb (k - 1) (by omega))]
  · rw [base, fibLoop_spec (k - 1) 0, e3, e4,
      Nat.mod_eq_of_lt (hb (k - 1) (by omega)),
      Nat.mod_eq_of_lt (hb k (by omega))]

theorem loop_invariant_witness :
    (2 : Nat) ≤ 5 ∧ (5 : Nat) ≤ 9 ∧ F 9 < 2 ^ 64 ∧
    (fibLoop (5 - 2) (0, 1) = (F (5 - 2), F (5 - 1)) ∧
     fibLoop (5 - 1) (0, 1) = (F (5 - 1), F 5)) :=
  ⟨by decide, by decide, by decide,
    loop_invariant 9 5 (by decide) (by decide) (by decide)⟩

/-- C8: `fibonacci` is deterministic and free of hidden state: the source
declares no static mutable state, so the embedding is a pure function; two
calls with equal arguments return equal values, and any number of repeated
calls with the same argument all return the same value. -/
theorem fibonacci_pure :
    (∀ n₁ n₂ : Nat, n₁ = n₂ → fibonacci n₁ = fibonacci n₂) ∧
    (∀ (n k : Nat), (List.replicate k n).map fibonacci
        = List.replicate k (fibonacci n)) :=
  ⟨fun _ _ h => congrArg fibonacci h, fun _ _ => List.map_replicate ..⟩

theorem fibonacci_pure_witness :
    fibonacci 7 = fibonacci 7 ∧
    (List.replicate 2 7).map fibonacci = List.replicate 2 (fibonacci 7) :=
  ⟨fibonacci_pure.1 7 7 rfl, fibonacci_pure.2 7 2⟩

lemma fibLoopFuel_enough : ∀ (k fuel : Nat), k ≤ fuel → ∀ st,
    fibLoopFuel fuel k st = some (fibLoop k st) := by
  intro k
  induction k with
  | zero => intro fuel _ st; cases fuel <;> rfl
  | succ k ih =>
    intro fuel h st
    cases fuel with
    | zero => omega
    | succ f => exact ih f (by omega) (loopStep st)

/-- C9: the loop terminates for every input: any fuel bound of at least
`n - 1` steps suffices for the fuel-indexed loop to finish and agree with
`fibonacci`, and the driver runs to completion, producing all ten lines. -/
theorem fibonacci_terminates :
    (∀ fuel n : Nat, n - 1 ≤ fuel → fibonacciFuel fuel n = some (fibonacci n)) ∧
    mainOutput.length = 10 := by
  refine ⟨fun fuel n h => ?_, rfl⟩
  unfold fibonacciFuel fibonacci
  by_cases hn : n ≤ 1
  · rw [if_pos hn, if_pos hn]
  · rw [if_neg hn, if_neg hn, fibLoopFuel_enough (n - 1) fuel h]
    rfl

theorem fibonacci_terminates_witness :
    fibonacciFuel 10 10 = some (fibonacci 10) ∧ mainOutput.length = 10 :=
  ⟨fibonacci_terminates.1 10 10 (by decide), fibonacci_terminates.2⟩

/-- C10 counterexample: the largest intermediate sum across the driver's
calls is not 21 + 34 = 55: every sum actually evaluated is at most 34, and
55 never occurs. -/
theorem driver_sums_cex :
    driverSums.all (fun s => Nat.ble s 34) = true ∧
    driverSums.contains 55 = false := by decide

/-- C10 (amended): for every index the driver passes to `fibonacci`
(0 through 9), every intermediate sum `a + b` stays strictly below
`u64::MAX = 2^64 - 1`; the largest sum that occurs is 13 + 21 = 34, so the
addition can never overflow during a driver-initiated call. -/
theorem driver_sums_safe :
    (∀ s ∈ driverSums, s < 2 ^ 64 - 1 ∧ s ≤ 34) ∧ 34 ∈ driverSums := by
  decide

theorem driver_sums_safe_witness :
    1 ∈ driverSums ∧ ((1 : Nat) < 2 ^ 64 - 1 ∧ (1 : Nat) ≤ 34) :=
  ⟨by decide, driver_sums_safe.1 1 (by decide)⟩
